import Mathlib

/-!
Verification of the pwnreport pipeline (src/pwnreport.py).

The program is a linear pipeline: regex email extraction (`find_emails`),
rate-limited sequential HTTP collection (`collect_results`), regex-based
re-indexing of response bodies by breach name (`format_results`), and report
writing (`deliver_results`).  All four stages are embedded below as
executable Lean functions; the HTTP layer is modelled by an oracle that
supplies one `Response` per issued request, and the observable behaviour of
a run (requests, sleeps, abort) is recorded as a list of `Event`s.
-/

namespace Pwn

/-! ### Email extraction: `find_emails`, src/pwnreport.py lines 55-75.

The Python code runs `re.findall` with the pattern
`[A-Z0-9._%+-]+@[A-Z0-9.-]+\.[A-Z]{2,}` and `re.IGNORECASE` over the whole
file contents.  We embed Python's scanning semantics directly: at each
position try a leftmost greedy match; on success emit the matched substring
and resume right after it, on failure advance one character. -/

/-- Characters matched by `[A-Z0-9._%+-]` under `re.IGNORECASE`. -/
def isLocalChar (c : Char) : Bool :=
  c.isAlpha || c.isDigit || c == '.' || c == '_' || c == '%' || c == '+' || c == '-'

/-- Characters matched by `[A-Z0-9.-]` under `re.IGNORECASE`. -/
def isDomainChar (c : Char) : Bool :=
  c.isAlpha || c.isDigit || c == '.' || c == '-'

/-- Greedy backtracking split of the maximal `[A-Z0-9.-]` run after the `@`:
`[A-Z0-9.-]+\.[A-Z]{2,}` picks the rightmost dot that is preceded by at
least one character and followed by at least two letters; the TLD part then
takes the maximal letter run.  Returns `(beforeDot, tld, leftover)`. -/
def splitDom : List Char → Option (List Char × List Char × List Char)
  | [] => none
  | c :: rest =>
    match splitDom rest with
    | some (p, t, l) => some (c :: p, t, l)
    | none =>
      if c = '.' ∧ 2 ≤ (rest.takeWhile Char.isAlpha).length then
        some ([], rest.takeWhile Char.isAlpha, rest.dropWhile Char.isAlpha)
      else none

/-- One attempt of the email regex anchored at the head of `cs`; returns the
matched substring and the remainder of the text on success. -/
def matchEmailAt (cs : List Char) : Option (List Char × List Char) :=
  if cs.takeWhile isLocalChar = [] then none
  else
    match cs.dropWhile isLocalChar with
    | '@' :: r2 =>
      match splitDom (r2.takeWhile isDomainChar) with
      | some (p, t, l) =>
        if p = [] then none
        else some (cs.takeWhile isLocalChar ++ '@' :: (p ++ '.' :: t),
                   l ++ r2.dropWhile isDomainChar)
      | none => none
    | _ => none

/-- The `re.findall` scan: try a match at every position, left to right,
non-overlapping.  Fuelled so that it stays executable; `find_emails`
supplies fuel equal to the text length, which is always sufficient. -/
def scanEmailsF : Nat → List Char → List (List Char)
  | 0, _ => []
  | fuel + 1, cs =>
    match matchEmailAt cs with
    | some (m, r) => m :: scanEmailsF fuel r
    | none =>
      match cs with
      | [] => []
      | _ :: rest => scanEmailsF fuel rest

/-- Embedding of `find_emails` (the zero-match `sys.exit` is handled by the
pipeline model `runMain` below). -/
def find_emails (text : String) : List String :=
  (scanEmailsF text.toList.length text.toList).map String.mk

/-- Specification-side predicate: `s` is a full match of the email pattern
`[A-Z0-9._%+-]+@[A-Z0-9.-]+\.[A-Z]{2,}` (case-insensitively). -/
def matchesEmailL (m : List Char) : Prop :=
  ∃ L D T, m = L ++ '@' :: (D ++ '.' :: T) ∧
    L ≠ [] ∧ (∀ c ∈ L, isLocalChar c = true) ∧
    D ≠ [] ∧ (∀ c ∈ D, isDomainChar c = true) ∧
    2 ≤ T.length ∧ (∀ c ∈ T, c.isAlpha = true)

/-- String version of `matchesEmailL`. -/
def matchesEmail (s : String) : Prop := matchesEmailL s.toList

/-- `allFail pre tail` holds when the email matcher fails at every anchor
inside `pre` (i.e. on every nonempty suffix of `pre`, continued by `tail`):
these are exactly the positions the findall scan tries and skips. -/
def allFail : List Char → List Char → Prop
  | [], _ => True
  | c :: pre, tail => matchEmailAt ((c :: pre) ++ tail) = none ∧ allFail pre tail

/-- `scanChunks cs ms` is the full characterisation of the findall scan on
`cs` producing `ms`: the chunks occur in `cs` in order without overlap, no
anchor position in between (or after the last chunk) admits a match, and at
each chunk's own anchor the pattern matches exactly that chunk. -/
def scanChunks : List Char → List (List Char) → Prop
  | cs, [] => allFail cs []
  | cs, m :: ms => ∃ pre tail, cs = pre ++ m ++ tail ∧ allFail pre (m ++ tail) ∧
      matchEmailAt (m ++ tail) = some (m, tail) ∧ scanChunks tail ms

/-! ### Breach-name extraction: `format_results`, src/pwnreport.py lines 138-158.

The Python code runs `re.findall('"Name":"(.*?)"', body, re.IGNORECASE)` on
each stored body and appends the owning address to each captured breach
name's list (creating the list on first sight of the name). -/

/-- Case-insensitive character comparison (ASCII folding, as `Char.toLower`). -/
def charEqCI (a b : Char) : Bool := a.toLower == b.toLower

/-- Strip a literal (case-insensitively) from the head of the text. -/
def dropLitCI : List Char → List Char → Option (List Char)
  | [], cs => some cs
  | _ :: _, [] => none
  | p :: ps, c :: cs => if charEqCI p c then dropLitCI ps cs else none

/-- The literal part of the pattern: the eight characters of a double quote,
`Name`, a double quote, a colon and a double quote. -/
def nameLit : List Char := ['\"', 'N', 'a', 'm', 'e', '\"', ':', '\"']

/-- The lazy `(.*?)"` part: capture the shortest run of characters up to a
closing double quote; `.` does not match a newline, so a newline before the
closing quote makes the whole attempt fail. -/
def takeCapture : List Char → Option (List Char × List Char)
  | [] => none
  | c :: cs =>
    if c = '\"' then some ([], cs)
    else if c = '\n' then none
    else
      match takeCapture cs with
      | some (nm, r) => some (c :: nm, r)
      | none => none

/-- One attempt of the breach-name regex anchored at the head of `cs`. -/
def matchNameAt (cs : List Char) : Option (List Char × List Char) :=
  match dropLitCI nameLit cs with
  | some rest => takeCapture rest
  | none => none

/-- The `re.findall` scan for `"Name":"(.*?)"`, fuelled like `scanEmailsF`. -/
def scanNamesF : Nat → List Char → List (List Char)
  | 0, _ => []
  | fuel + 1, cs =>
    match matchNameAt cs with
    | some (nm, r) => nm :: scanNamesF fuel r
    | none =>
      match cs with
      | [] => []
      | _ :: rest => scanNamesF fuel rest

/-- All breach names captured from one response body, in scan order. -/
def findNames (body : String) : List String :=
  (scanNamesF body.toList.length body.toList).map String.mk

/-- Specification-side: case-insensitive prefix test (used to state the
claim's "the body contains an occurrence of the pattern" reading). -/
def startsWithCI : List Char → List Char → Bool
  | [], _ => true
  | _ :: _, [] => false
  | p :: ps, c :: cs => charEqCI p c && startsWithCI ps cs

/-- Specification-side: case-insensitive substring containment. -/
def containsCIGo : List Char → List Char → Bool
  | [], pat => startsWithCI pat []
  | c :: t, pat => startsWithCI pat (c :: t) || containsCIGo t pat

/-- Specification-side: `containsCI hay pat` holds iff `pat` occurs in `hay`
as a contiguous substring, compared case-insensitively. -/
def containsCI (hay pat : String) : Bool := containsCIGo hay.toList pat.toList

/-- `known_breaches[breach].append(address)`, creating the entry at the end
of the (insertion-ordered) dictionary when the breach is new. -/
def addBreach : List (String × List String) → String → String → List (String × List String)
  | [], breach, addr => [(breach, [addr])]
  | (b, l) :: rest, breach, addr =>
    if b = breach then (b, l ++ [addr]) :: rest
    else (b, l) :: addBreach rest breach addr

/-- The inner loop of `format_results`: append `addr` to every captured name. -/
def addAll : List (String × List String) → String → List String → List (String × List String)
  | kb, _, [] => kb
  | kb, addr, n :: ns => addAll (addBreach kb n addr) addr ns

/-- The outer loop of `format_results` over the raw-response mapping. -/
def formatGo : List (String × List String) → List (String × String) → List (String × List String)
  | kb, [] => kb
  | kb, (addr, body) :: rest => formatGo (addAll kb addr (findNames body)) rest

/-- Embedding of `format_results`: raw-response mapping (insertion-ordered
association list) to breach-indexed mapping. -/
def format_results (results : List (String × String)) : List (String × List String) :=
  formatGo [] results

/-- Lookup in the breach-indexed mapping; `[]` for an absent breach. -/
def breachGet : List (String × List String) → String → List String
  | [], _ => []
  | (b, l) :: rest, k => if b = k then l else breachGet rest k

/-- Specification-side description of one breach's address list: walk the raw
mapping in order and emit the owning address once per capture of `k`. -/
def specBreachList (results : List (String × String)) (k : String) : List String :=
  results.flatMap (fun p => ((findNames p.2).filter (fun n => n = k)).map (fun _ => p.1))

/-! ### Report writing: `deliver_results`, src/pwnreport.py lines 161-173. -/

/-- The exact sequence of strings the Python loop passes to
`file_handler.write`, in order: per breach the bold-marked name line, one
bullet line per address, then the blank separator line. -/
def reportLines : List (String × List String) → List String
  | [] => []
  | p :: rest =>
    ("**" ++ p.1 ++ "**\n") :: (p.2.map (fun e => "* " ++ e ++ "\n") ++ ("\n" :: reportLines rest))

/-- Embedding of `deliver_results`: the file is opened with mode `w`
(truncate), so the previous content `oldFile` is discarded and the final
content is the concatenation of the written strings. -/
def deliver_results (report : List (String × List String)) (oldFile : Option String) : String :=
  (reportLines report).foldl (fun acc s => acc ++ s) ""

/-- Specification-side text of one breach block, as the claim states it:
bold-marked name line, one bullet line per address, blank separator line. -/
def concatAll : List String → String
  | [] => ""
  | s :: rest => s ++ concatAll rest

/-- Specification-side block text for one breach. -/
def blockTextSpec (b : String) (addrs : List String) : String :=
  "**" ++ b ++ "**\n" ++ concatAll (addrs.map (fun e => "* " ++ e ++ "\n")) ++ "\n"

/-- Specification-side full report text: blocks in mapping order. -/
def reportTextSpec (report : List (String × List String)) : String :=
  concatAll (report.map (fun p => blockTextSpec p.1 p.2))

/-! ### Collection: `collect_results`, src/pwnreport.py lines 78-135. -/

/-- An HTTP response as the collector observes it: status code and body. -/
structure Response where
  status : Nat
  body : String
  deriving DecidableEq

/-- `USER_AGENT`, src/pwnreport.py line 25. -/
def userAgent : String := "pwned_reportv1"

/-- `API_URL`, src/pwnreport.py line 26. -/
def apiURL : String := "https://haveibeenpwned.com/api/v3/breachedaccount"

/-- The URL built on line 100: `API_URL + '/{}?truncateResponse=true'.format(address)`.
The address is interpolated verbatim; no URL encoding is applied. -/
def urlFor (addr : String) : String :=
  apiURL ++ "/" ++ addr ++ "?truncateResponse=true"

/-- The headers dictionary built on line 83. -/
def headersFor (key : String) : List (String × String) :=
  [("User-Agent", userAgent), ("hibp-api-key", key)]

/-- Specification-side RFC 3986 percent-encoding (unreserved characters are
kept, everything else becomes `%` plus two uppercase hex digits); used to
state the claim's "URL-encoded address" reading. -/
def hexDigit (n : Nat) : Char :=
  if n < 10 then Char.ofNat (48 + n) else Char.ofNat (55 + n)

/-- Specification-side percent-encoding of one character. -/
def urlEncodeChar (c : Char) : List Char :=
  if c.isAlpha || c.isDigit || c = '-' || c = '.' || c = '_' || c = '~' then [c]
  else ['%', hexDigit (c.toNat / 16), hexDigit (c.toNat % 16)]

/-- Specification-side percent-encoding of a string. -/
def urlEncode (s : String) : String := String.mk (s.toList.flatMap urlEncodeChar)

/-- Observable actions of a run: an HTTP GET (URL and headers), a sleep of
the configured delay, or the fatal `sys.exit` on suspected rate limiting. -/
inductive Event where
  | request : String → List (String × String) → Event
  | sleep : Rat → Event
  | abort : Event
  deriving DecidableEq

/-- Whether an event is an HTTP request. -/
def isRequest : Event → Bool
  | Event.request _ _ => true
  | _ => false

/-- Whether an event is a sleep. -/
def isSleep : Event → Bool
  | Event.sleep _ => true
  | _ => false

/-- Result of the collection stage: the fatal mid-run exit discards the
partial results, a completed run returns the raw-response mapping. -/
inductive Outcome where
  | aborted : Outcome
  | completed : List (String × String) → Outcome
  deriving DecidableEq

/-- A response counts toward the failure threshold iff its status is neither
200 nor 404 (line 115). -/
def isFail (r : Response) : Bool := !(r.status == 200 || r.status == 404)

/-- Python dict assignment `d[k] = v`: update in place (keeping the key's
first-insertion position) or append a new entry. -/
def dictInsert : List (String × String) → String → String → List (String × String)
  | [], k, v => [(k, v)]
  | (k', v') :: rest, k, v =>
    if k' = k then (k', v) :: rest else (k', v') :: dictInsert rest k v

/-- Dictionary lookup. -/
def dictGet : List (String × String) → String → Option String
  | [], _ => none
  | (k', v') :: rest, k => if k' = k then some v' else dictGet rest k

/-- Line 123: only a non-empty body is stored (`if res.text:`). -/
def store (acc : List (String × String)) (addr : String) (res : Response) :
    List (String × String) :=
  if res.body = "" then acc else dictInsert acc addr res.body

/-- The stored mapping after a sequence of address/response pairs. -/
def storeAll : List (String × String) → List (String × Response) → List (String × String)
  | acc, [] => acc
  | acc, p :: rest => storeAll (store acc p.1 p.2) rest

/-- The loop of `collect_results` (lines 98-131), as a function of the
address/response pairs still to process, the failure counter and the
accumulated raw results.  Per iteration: issue the request; if the status is
neither 200 nor 404, increment the counter and exit fatally when it reaches
3 (before the body is stored and before the sleep); otherwise store a
non-empty body and sleep for the configured delay. -/
def collectGo (t : Rat) (key : String) :
    List (String × Response) → Nat → List (String × String) → List Event × Outcome
  | [], _, acc => ([], Outcome.completed acc)
  | (addr, res) :: rest, failed, acc =>
    if isFail res then
      if 3 ≤ failed + 1 then
        ([Event.request (urlFor addr) (headersFor key), Event.abort], Outcome.aborted)
      else
        let next := collectGo t key rest (failed + 1) (store acc addr res)
        (Event.request (urlFor addr) (headersFor key) :: Event.sleep t :: next.1, next.2)
    else
      let next := collectGo t key rest failed (store acc addr res)
      (Event.request (urlFor addr) (headersFor key) :: Event.sleep t :: next.1, next.2)

/-- The last non-empty response body recorded for address `a`, starting from
`o`: specification side of the dictionary's overwrite behaviour. -/
def lastBodyFrom (a : String) : Option String → List (String × Response) → Option String
  | o, [] => o
  | o, p :: rest => lastBodyFrom a (if p.1 = a ∧ p.2.body ≠ "" then some p.2.body else o) rest

/-- The `-s` (long form `--sleep`) option, lines 39-41: parsed with `type=int`, so a
supplied value is an integer number of seconds; the default is the float
`1.6`. -/
def sleepSetting : Option Int → Rat
  | none => 1.6
  | some n => (n : Rat)

/-! ### The whole pipeline: `main`, src/pwnreport.py lines 176-184. -/

/-- How a run ends. -/
inductive RunResult where
  | abortedNoEmails : RunResult
  | abortedRateLimit : RunResult
  | finished : RunResult
  deriving DecidableEq

/-- The address/response pairs a run will process: the `i`-th extracted
address is answered by the oracle's `i`-th response. -/
def pairsOf (text : String) (api : Nat → Response) : List (String × Response) :=
  (find_emails text).enum.map (fun p => (p.2, api p.1))

/-- Embedding of `main`: extract, collect, format, write.  Returns the event
trace, the final content of the output file (`oldFile` when nothing was
written) and how the run ended. -/
def runMain (text : String) (api : Nat → Response) (t : Rat) (key : String)
    (oldFile : Option String) : List Event × Option String × RunResult :=
  if find_emails text = [] then ([], oldFile, RunResult.abortedNoEmails)
  else
    match collectGo t key (pairsOf text api) 0 [] with
    | (evs, Outcome.aborted) => (evs, oldFile, RunResult.abortedRateLimit)
    | (evs, Outcome.completed res) =>
      (evs, some (deliver_results (format_results res) oldFile), RunResult.finished)

/-! ### Lemmas about the email scanner -/

theorem toList_mk (l : List Char) : (String.mk l).toList = l := rfl

theorem splitDom_eq : ∀ (d p t l : List Char), splitDom d = some (p, t, l) →
    d = p ++ '.' :: (t ++ l) ∧ 2 ≤ t.length ∧ ∀ c ∈ t, c.isAlpha = true := by
  intro d
  induction d with
  | nil => intro p t l h; simp [splitDom] at h
  | cons c rest ih =>
    intro p t l h
    simp only [splitDom] at h
    split at h
    · rename_i p' t' l' heq
      simp only [Option.some.injEq, Prod.mk.injEq] at h
      obtain ⟨hp, ht, hl⟩ := h
      subst hp ht hl
      obtain ⟨h1, h2, h3⟩ := ih p' t' l' heq
      exact ⟨by rw [List.cons_append, h1], h2, h3⟩
    · split at h
      · rename_i hc
        simp only [Option.some.injEq, Prod.mk.injEq] at h
        obtain ⟨hp, ht, hl⟩ := h
        subst hp ht hl
        refine ⟨?_, hc.2, ?_⟩
        · rw [hc.1]
          simp [List.takeWhile_append_dropWhile]
        · intro x hx; exact List.mem_takeWhile_imp hx
      · exact absurd h (by simp)

theorem matchEmailAt_eq (cs m r : List Char) (h : matchEmailAt cs = some (m, r)) :
    cs = m ++ r ∧ matchesEmailL m := by
  unfold matchEmailAt at h
  split at h
  · exact absurd h (by simp)
  · rename_i hlp
    split at h
    case h_2 => exact absurd h (by simp)
    rename_i r2 heq
    split at h
    case h_2 => exact absurd h (by simp)
    rename_i p t l hsd
    split at h
    · exact absurd h (by simp)
    · rename_i hpne
      simp only [Option.some.injEq, Prod.mk.injEq] at h
      obtain ⟨hm, hr⟩ := h
      subst hm hr
      obtain ⟨e3, htl, hta⟩ := splitDom_eq _ p t l hsd
      have e1 : cs.takeWhile isLocalChar ++ cs.dropWhile isLocalChar = cs :=
        List.takeWhile_append_dropWhile _ _
      have e2 : r2.takeWhile isDomainChar ++ r2.dropWhile isDomainChar = r2 :=
        List.takeWhile_append_dropWhile _ _
      constructor
      · conv_lhs => rw [← e1, heq, ← e2, e3]
        simp [List.append_assoc]
      · refine ⟨cs.takeWhile isLocalChar, p, t, rfl, hlp, ?_, hpne, ?_, htl, hta⟩
        · intro c hc; exact List.mem_takeWhile_imp hc
        · intro c hc
          have hmem : c ∈ r2.takeWhile isDomainChar := by
            rw [e3]; exact List.mem_append_left _ hc
          exact List.mem_takeWhile_imp hmem

theorem scanEmailsF_sound : ∀ (fuel : Nat) (cs : List Char),
    ∀ m ∈ scanEmailsF fuel cs, matchesEmailL m := by
  intro fuel
  induction fuel with
  | zero => intro cs; simp [scanEmailsF]
  | succ n ih =>
    intro cs
    cases hm : matchEmailAt cs with
    | some v =>
      obtain ⟨m, r⟩ := v
      obtain ⟨hcs, hmatch⟩ := matchEmailAt_eq cs m r hm
      intro e he
      simp only [scanEmailsF, hm, List.mem_cons] at he
      rcases he with rfl | he
      · exact hmatch
      · exact ih r e he
    | none =>
      cases cs with
      | nil => simp [scanEmailsF, hm]
      | cons c rest =>
        intro e he
        simp only [scanEmailsF, hm] at he
        exact ih rest e he

theorem matchEmailAt_shrink (cs m r : List Char) (h : matchEmailAt cs = some (m, r)) :
    r.length < cs.length := by
  obtain ⟨hcs, hm⟩ := matchEmailAt_eq cs m r h
  obtain ⟨L, D, T, hmeq, -, -, -, -, -, -⟩ := hm
  have hml : 0 < m.length := by
    rw [hmeq, List.length_append, List.length_cons]
    omega
  rw [hcs, List.length_append]
  omega

theorem takeWhile_run (p : Char → Bool) :
    ∀ (L : List Char) (x : Char) (rest : List Char),
      (∀ c ∈ L, p c = true) → p x = false →
      (L ++ x :: rest).takeWhile p = L ∧ (L ++ x :: rest).dropWhile p = x :: rest := by
  intro L
  induction L with
  | nil => intro x rest _ hx; simp [List.takeWhile_cons, List.dropWhile_cons, hx]
  | cons c L' ih =>
    intro x rest hall hx
    have hc : p c = true := hall c (by simp)
    have hrec := ih x rest (fun d hd => hall d (by simp [hd])) hx
    simp [List.takeWhile_cons, List.dropWhile_cons, hc, hrec.1, hrec.2]

theorem takeWhile_all (p : Char → Bool) :
    ∀ (A B : List Char), (∀ c ∈ A, p c = true) →
      (A ++ B).takeWhile p = A ++ B.takeWhile p := by
  intro A
  induction A with
  | nil => intro B _; simp
  | cons c A' ih =>
    intro B hall
    have hc : p c = true := hall c (by simp)
    simp [List.takeWhile_cons, hc, ih B (fun d hd => hall d (by simp [hd]))]

theorem splitDom_isSome :
    ∀ (D rest : List Char), 2 ≤ (rest.takeWhile Char.isAlpha).length →
      ∃ p' t' l', splitDom (D ++ '.' :: rest) = some (p', t', l') ∧ D.length ≤ p'.length := by
  intro D
  induction D with
  | nil =>
    intro rest h2
    cases hsr : splitDom rest with
    | some v =>
      obtain ⟨p, t, l⟩ := v
      exact ⟨'.' :: p, t, l, by simp [splitDom, hsr], by simp⟩
    | none =>
      refine ⟨[], rest.takeWhile Char.isAlpha, rest.dropWhile Char.isAlpha, ?_, by simp⟩
      simp [splitDom, hsr, h2]
  | cons c D' ih =>
    intro rest h2
    obtain ⟨p', t', l', hsd, hlen⟩ := ih rest h2
    refine ⟨c :: p', t', l', ?_, by simpa using Nat.succ_le_succ hlen⟩
    simp [splitDom, hsd]

theorem matchEmailAt_of_matches (m v : List Char) (hm : matchesEmailL m) :
    (matchEmailAt (m ++ v)).isSome = true := by
  obtain ⟨L, D, T, hmeq, hL, hLall, hD, hDall, hT2, hTall⟩ := hm
  subst hmeq
  have hcs : (L ++ '@' :: (D ++ '.' :: T)) ++ v = L ++ '@' :: (D ++ '.' :: (T ++ v)) := by
    simp [List.append_assoc]
  rw [hcs]
  have hAt : isLocalChar '@' = false := by decide
  obtain ⟨ht, hd⟩ := takeWhile_run isLocalChar L '@' (D ++ '.' :: (T ++ v)) hLall hAt
  have hDdot : ∀ c ∈ D ++ ['.'], isDomainChar c = true := by
    intro c hc
    rcases List.mem_append.mp hc with h1 | h1
    · exact hDall c h1
    · simp only [List.mem_singleton] at h1
      subst h1
      decide
  have hTd : ∀ c ∈ T, isDomainChar c = true := by
    intro c hc
    simp [isDomainChar, hTall c hc]
  have e1 : (D ++ ['.']) ++ (T ++ v) = D ++ '.' :: (T ++ v) := by simp
  have hR : (D ++ '.' :: (T ++ v)).takeWhile isDomainChar
      = D ++ '.' :: ((T ++ v).takeWhile isDomainChar) := by
    rw [← e1, takeWhile_all isDomainChar (D ++ ['.']) (T ++ v) hDdot]
    simp
  have hTv : (T ++ v).takeWhile isDomainChar = T ++ v.takeWhile isDomainChar :=
    takeWhile_all isDomainChar T v hTd
  have h2 : 2 ≤ (((T ++ v).takeWhile isDomainChar).takeWhile Char.isAlpha).length := by
    rw [hTv, takeWhile_all Char.isAlpha T (v.takeWhile isDomainChar) hTall,
      List.length_append]
    omega
  obtain ⟨p', t', l', hsd, hlen⟩ :=
    splitDom_isSome D ((T ++ v).takeWhile isDomainChar) h2
  have hp : p' ≠ [] :=
    List.ne_nil_of_length_pos (lt_of_lt_of_le (List.length_pos.mpr hD) hlen)
  unfold matchEmailAt
  rw [ht, if_neg hL, hd]
  split
  · rename_i r2 heq2
    have hr2 : r2 = D ++ '.' :: (T ++ v) := by
      injection heq2 with h1 h2
      exact h2.symm
    subst hr2
    rw [hR, hsd]
    simp [hp]
  · rename_i hne
    exact (hne (D ++ '.' :: (T ++ v)) rfl).elim

theorem allFail_drop : ∀ (u s tail : List Char), allFail (u ++ s) tail → s ≠ [] →
    matchEmailAt (s ++ tail) = none := by
  intro u
  induction u with
  | nil =>
    intro s tail h hs
    cases s with
    | nil => exact absurd rfl hs
    | cons c s' => exact h.1
  | cons c u' ih =>
    intro s tail h hs
    exact ih s tail h.2 hs

theorem scanChunks_cons (c : Char) (rest : List Char) (ms : List (List Char))
    (hm : matchEmailAt (c :: rest) = none) (h : scanChunks rest ms) :
    scanChunks (c :: rest) ms := by
  cases ms with
  | nil => exact ⟨by simpa using hm, h⟩
  | cons m ms =>
    obtain ⟨pre, tail, heq, hfail, hmatch, hrec⟩ := h
    refine ⟨c :: pre, tail, by rw [heq]; rfl, ⟨?_, hfail⟩, hmatch, hrec⟩
    have e : (c :: pre) ++ (m ++ tail) = c :: rest := by
      rw [heq]
      simp
    rw [e]
    exact hm

theorem scanEmailsF_chunks : ∀ (fuel : Nat) (cs : List Char), cs.length ≤ fuel →
    scanChunks cs (scanEmailsF fuel cs) := by
  intro fuel
  induction fuel with
  | zero =>
    intro cs h
    have hnil : cs = [] := List.length_eq_zero.mp (Nat.le_zero.mp h)
    subst hnil
    simp [scanEmailsF, scanChunks, allFail]
  | succ n ih =>
    intro cs hlen
    cases hm : matchEmailAt cs with
    | some v =>
      obtain ⟨m, r⟩ := v
      obtain ⟨hcs, -⟩ := matchEmailAt_eq cs m r hm
      have hr : r.length < cs.length := matchEmailAt_shrink cs m r hm
      simp only [scanEmailsF, hm]
      refine ⟨[], r, by simpa using hcs, trivial, ?_, ih r (by omega)⟩
      rw [← hcs]
      exact hm
    | none =>
      cases cs with
      | nil => simp [scanEmailsF, hm, scanChunks, allFail]
      | cons c rest =>
        have hrec := ih rest (by simpa using Nat.le_of_succ_le_succ hlen)
        simp only [scanEmailsF, hm]
        exact scanChunks_cons c rest _ hm hrec

/-- C3: for every input text, the extractor returns exactly the substrings
the left-to-right non-overlapping scan of the email pattern yields: each
returned string fully matches the pattern (case-insensitively); the
returned strings occur in the text in order without overlap; at every
position the scan passed over no match of the pattern begins, and at each
returned string's own position the pattern matches exactly that string
(`scanChunks`); consequently the extractor returns the empty sequence iff
no substring of the text matches the pattern at all.  Duplicates are kept
(no deduplication), as the concrete runs show. -/
theorem find_emails_matches :
    (∀ text : String,
      (∀ e ∈ find_emails text, matchesEmail e) ∧
      scanChunks text.toList ((find_emails text).map String.toList) ∧
      (find_emails text = [] ↔
        ∀ u m v, text.toList = u ++ m ++ v → ¬ matchesEmailL m)) ∧
    find_emails "bob@x.co bob@x.co ALICE@Y.ORG" = ["bob@x.co", "bob@x.co", "ALICE@Y.ORG"] ∧
    find_emails "no valid address here" = [] := by
  refine ⟨?_, by decide, by decide⟩
  intro text
  have hchunks := scanEmailsF_chunks text.toList.length text.toList (le_refl _)
  have hmap : ((scanEmailsF text.toList.length text.toList).map String.mk).map String.toList
      = scanEmailsF text.toList.length text.toList := by
    rw [List.map_map]
    have hid : String.toList ∘ String.mk = id := funext toList_mk
    rw [hid, List.map_id]
  have hchunks' : scanChunks text.toList ((find_emails text).map String.toList) := by
    rw [find_emails, hmap]
    exact hchunks
  refine ⟨?_, hchunks', ?_, ?_⟩
  · intro e he
    simp only [find_emails, List.mem_map] at he
    obtain ⟨mm, hmm, rfl⟩ := he
    exact scanEmailsF_sound _ _ mm hmm
  · intro h0 u mseg v heq hmseg
    have hscan : scanEmailsF text.toList.length text.toList = [] := by
      rw [find_emails] at h0
      exact List.map_eq_nil_iff.mp h0
    have hall : allFail text.toList [] := by
      rw [hscan] at hchunks
      exact hchunks
    have hm_ne : mseg ≠ [] := by
      obtain ⟨L, D, T, hmeq, -, -, -, -, -, -⟩ := hmseg
      intro hcon
      rw [hcon] at hmeq
      have hlen := congrArg List.length hmeq
      rw [List.length_append, List.length_cons] at hlen
      simp only [List.length_nil] at hlen
      omega
    have hfail : matchEmailAt ((mseg ++ v) ++ []) = none := by
      apply allFail_drop u (mseg ++ v) []
      · have e : u ++ mseg ++ v = u ++ (mseg ++ v) := List.append_assoc u mseg v
        rw [heq, e] at hall
        exact hall
      · intro hcon
        exact hm_ne (List.append_eq_nil.mp hcon).1
    have hsome := matchEmailAt_of_matches mseg v hmseg
    rw [List.append_nil] at hfail
    rw [hfail] at hsome
    simp at hsome
  · intro hnone
    by_contra hne
    obtain ⟨e, rest, hcons⟩ : ∃ e rest, find_emails text = e :: rest := by
      cases hfe : find_emails text with
      | nil => exact absurd hfe hne
      | cons e rest => exact ⟨e, rest, rfl⟩
    rw [hcons] at hchunks'
    obtain ⟨pre, tail, heq, -, hmatch, -⟩ := hchunks'
    exact hnone pre e.toList tail heq (matchEmailAt_eq _ _ _ hmatch).2

/-- C3 witness: the theorem applied to a concrete extracted address. -/
theorem find_emails_matches_witness : matchesEmail "bob@x.co" :=
  (find_emails_matches.1 "bob@x.co bob@x.co ALICE@Y.ORG").1 "bob@x.co" (by decide)

/-! ### Lemmas about the breach formatter -/

theorem breachGet_addBreach (kb : List (String × List String)) (n a k : String) :
    breachGet (addBreach kb n a) k = breachGet kb k ++ (if n = k then [a] else []) := by
  induction kb with
  | nil => by_cases h : n = k <;> simp [addBreach, breachGet, h]
  | cons hd rest ih =>
    obtain ⟨b, l⟩ := hd
    by_cases hbn : b = n
    · subst hbn
      by_cases hbk : b = k
      · subst hbk; simp [addBreach, breachGet]
      · simp [addBreach, breachGet, hbk]
    · by_cases hbk : b = k
      · have hnk : ¬ n = k := fun hh => hbn (hbk.trans hh.symm)
        subst hbk
        simp [addBreach, breachGet, hbn, hnk]
      · simp [addBreach, breachGet, hbn, hbk, ih]

theorem breachGet_addAll (ns : List String) :
    ∀ (kb : List (String × List String)) (a k : String),
      breachGet (addAll kb a ns) k =
        breachGet kb k ++ (ns.filter (fun n => n = k)).map (fun _ => a) := by
  induction ns with
  | nil => intro kb a k; simp [addAll]
  | cons n ns ih =>
    intro kb a k
    rw [addAll, ih, breachGet_addBreach]
    by_cases h : n = k <;> simp [h, List.filter_cons, List.append_assoc]

theorem breachGet_formatGo (rs : List (String × String)) :
    ∀ (kb : List (String × List String)) (k : String),
      breachGet (formatGo kb rs) k = breachGet kb k ++ specBreachList rs k := by
  induction rs with
  | nil => intro kb k; simp [formatGo, specBreachList]
  | cons p rest ih =>
    intro kb k
    obtain ⟨addr, body⟩ := p
    rw [formatGo, ih, breachGet_addAll]
    simp [specBreachList, List.append_assoc]

theorem addBreach_keys (kb : List (String × List String)) (n a : String) :
    (addBreach kb n a).map Prod.fst =
      if n ∈ kb.map Prod.fst then kb.map Prod.fst else kb.map Prod.fst ++ [n] := by
  induction kb with
  | nil => simp [addBreach]
  | cons hd rest ih =>
    obtain ⟨b, l⟩ := hd
    by_cases hbn : b = n
    · subst hbn; simp [addBreach]
    · have hnb : ¬ n = b := fun hh => hbn hh.symm
      by_cases hmem : n ∈ rest.map Prod.fst
      · simp [addBreach, hbn, ih, hmem, hnb, List.mem_cons]
      · simp [addBreach, hbn, ih, hmem, hnb, List.mem_cons]

theorem addBreach_nodup (kb : List (String × List String)) (n a : String)
    (h : (kb.map Prod.fst).Nodup) : ((addBreach kb n a).map Prod.fst).Nodup := by
  rw [addBreach_keys]
  split
  · exact h
  · rename_i hn
    simp [List.nodup_append, h, hn]

theorem addAll_nodup (ns : List String) :
    ∀ (kb : List (String × List String)) (a : String),
      (kb.map Prod.fst).Nodup → ((addAll kb a ns).map Prod.fst).Nodup := by
  induction ns with
  | nil => intro kb a h; exact h
  | cons n ns ih =>
    intro kb a h
    rw [addAll]
    exact ih _ a (addBreach_nodup kb n a h)

theorem formatGo_nodup (rs : List (String × String)) :
    ∀ kb : List (String × List String),
      (kb.map Prod.fst).Nodup → ((formatGo kb rs).map Prod.fst).Nodup := by
  induction rs with
  | nil => intro kb h; exact h
  | cons p rest ih =>
    intro kb h
    obtain ⟨addr, body⟩ := p
    rw [formatGo]
    exact ih _ (addAll_nodup _ kb addr h)

/-- C2 (amended): breach names are attached to addresses by the left-to-right
non-overlapping case-insensitive scan for a literal quote-Name-quote-colon-quote
prefix followed by a shortest run of non-newline characters and a closing
quote (`findNames`); an address appears under breach `k` iff that scan
captures `k` from its stored body, appended once per capture, and each
breach's list carries the addresses in the per-address iteration order of
the raw mapping.  The breach keys are pairwise distinct. -/
theorem format_results_capture_iff (results : List (String × String)) (k : String) :
    breachGet (format_results results) k = specBreachList results k ∧
    ((format_results results).map Prod.fst).Nodup := by
  constructor
  · have h := breachGet_formatGo results [] k
    simpa [format_results, breachGet] using h
  · exact formatGo_nodup results [] (by simp)

/-- C2 counterexample: the stored body is literally the text
quote Name quote colon quote A newline B quote — it contains an occurrence
of the pattern (with breach name `A` newline `B`), even case-sensitively,
yet the breach-indexed report is empty, because `.` in the Python pattern
does not match a newline.  So containment of the pattern text is not
equivalent to appearing in the report. -/
theorem format_newline_name_counterexample :
    containsCI "\"Name\":\"A\nB\"" ("\"Name\":\"" ++ "A\nB" ++ "\"") = true ∧
    format_results [("a@x.co", "\"Name\":\"A\nB\"")] = [] := by decide

/-! ### Lemmas about the report writer -/

theorem strAppend_assoc (a b c : String) : a ++ b ++ c = a ++ (b ++ c) := by
  apply String.ext
  simp [String.data_append, List.append_assoc]

theorem strAppend_empty (a : String) : a ++ "" = a := by
  apply String.ext
  simp [String.data_append, show ("" : String).data = [] from rfl]

theorem strEmpty_append (a : String) : "" ++ a = a := by
  apply String.ext
  simp [String.data_append, show ("" : String).data = [] from rfl]

theorem foldl_append_concatAll (l : List String) :
    ∀ s : String, l.foldl (fun acc x => acc ++ x) s = s ++ concatAll l := by
  induction l with
  | nil => intro s; simp [concatAll, strAppend_empty]
  | cons x l ih =>
    intro s
    simp only [List.foldl_cons, concatAll]
    rw [ih, strAppend_assoc]

theorem concatAll_append (l1 l2 : List String) :
    concatAll (l1 ++ l2) = concatAll l1 ++ concatAll l2 := by
  induction l1 with
  | nil => simp [concatAll, strEmpty_append]
  | cons x l ih => simp [concatAll, ih, strAppend_assoc]

theorem concatAll_reportLines (report : List (String × List String)) :
    concatAll (reportLines report) = reportTextSpec report := by
  induction report with
  | nil => rfl
  | cons p rest ih =>
    obtain ⟨b, addrs⟩ := p
    simp only [reportLines, reportTextSpec, List.map_cons, concatAll, concatAll_append,
      blockTextSpec]
    rw [ih]
    simp [reportTextSpec, blockTextSpec, strAppend_assoc]

/-- C4: for every breach-indexed mapping, the written file content is one
block per breach — the bold-marked name line, one bullet line per affected
address in list order, then a blank separator line — with blocks in the
mapping's (first-insertion) order; the previous file content `old` does not
influence the result (mode `w` truncates). -/
theorem deliver_results_blocks (report : List (String × List String)) (old : Option String) :
    deliver_results report old = reportTextSpec report := by
  rw [deliver_results, foldl_append_concatAll, strEmpty_append, concatAll_reportLines]

/-! ### Lemmas about the collector -/

theorem collectGo_completed (t : Rat) (key : String) :
    ∀ (pairs : List (String × Response)) (f : Nat) (acc : List (String × String)),
      f + List.countP isFail (pairs.map Prod.snd) ≤ 2 →
      collectGo t key pairs f acc =
        (pairs.flatMap (fun p => [Event.request (urlFor p.1) (headersFor key), Event.sleep t]),
         Outcome.completed (storeAll acc pairs)) := by
  intro pairs
  induction pairs with
  | nil => intro f acc _; simp [collectGo, storeAll]
  | cons p rest ih =>
    intro f acc h
    obtain ⟨addr, res⟩ := p
    rw [List.map_cons, List.countP_cons] at h
    rw [collectGo]
    by_cases hf : isFail res = true
    · rw [if_pos hf] at h
      have h3 : ¬ 3 ≤ f + 1 := by omega
      have hrec := ih (f + 1) (store acc addr res) (by omega)
      simp [hf, h3, hrec, storeAll]
    · rw [if_neg hf] at h
      have hrec := ih f (store acc addr res) (by omega)
      simp [hf, hrec, storeAll]

theorem collectGo_aborted (t : Rat) (key : String) :
    ∀ (xs : List (String × Response)) (a : String) (r : Response)
      (ys : List (String × Response)) (f : Nat) (acc : List (String × String)),
      f + List.countP isFail (xs.map Prod.snd) = 2 → isFail r = true →
      collectGo t key (xs ++ (a, r) :: ys) f acc =
        (xs.flatMap (fun p => [Event.request (urlFor p.1) (headersFor key), Event.sleep t]) ++
          [Event.request (urlFor a) (headersFor key), Event.abort], Outcome.aborted) := by
  intro xs
  induction xs with
  | nil =>
    intro a r ys f acc hc hr
    have hf : f = 2 := by simpa using hc
    subst hf
    rw [List.nil_append, collectGo]
    simp [hr]
  | cons p rest ih =>
    intro a r ys f acc hc hr
    obtain ⟨addr, res⟩ := p
    rw [List.map_cons, List.countP_cons] at hc
    rw [List.cons_append, collectGo]
    by_cases hf : isFail res = true
    · rw [if_pos hf] at hc
      have h3 : ¬ 3 ≤ f + 1 := by omega
      have hrec := ih a r ys (f + 1) (store acc addr res) (by omega) hr
      simp [hf, h3, hrec, List.append_assoc]
    · rw [if_neg hf] at hc
      have hrec := ih a r ys f (store acc addr res) (by omega) hr
      simp [hf, hrec, List.append_assoc]

/-- C1: with exactly two threshold failures among the earlier responses, the
response `r` (neither 200 nor 404) is the third: the collector issues its
request and exits immediately — no body store, no sleep, and no request for
any of the remaining addresses `ys`.  Conversely, while the total number of
threshold failures stays at most two, every address is processed and the
run completes. -/
theorem collect_abort_third_failure (t : Rat) (key : String) :
    (∀ (xs : List (String × Response)) (a : String) (r : Response)
        (ys : List (String × Response)),
      List.countP isFail (xs.map Prod.snd) = 2 → isFail r = true →
      collectGo t key (xs ++ (a, r) :: ys) 0 [] =
        (xs.flatMap (fun p => [Event.request (urlFor p.1) (headersFor key), Event.sleep t]) ++
          [Event.request (urlFor a) (headersFor key), Event.abort], Outcome.aborted)) ∧
    (∀ pairs : List (String × Response),
      List.countP isFail (pairs.map Prod.snd) ≤ 2 →
      collectGo t key pairs 0 [] =
        (pairs.flatMap (fun p => [Event.request (urlFor p.1) (headersFor key), Event.sleep t]),
         Outcome.completed (storeAll [] pairs))) := by
  constructor
  · intro xs a r ys hc hr
    exact collectGo_aborted t key xs a r ys 0 [] (by simpa using hc) hr
  · intro pairs h
    exact collectGo_completed t key pairs 0 [] (by simpa using h)

/-- C1 witness: a run whose third, fourth and fifth responses would be
failures aborts right after the third failure. -/
theorem collect_abort_third_failure_witness :
    collectGo 0 "k" ([("e1@x.co", Response.mk 500 ""), ("e2@x.co", Response.mk 503 "")] ++
        ("e3@x.co", Response.mk 429 "") :: [("e4@x.co", Response.mk 200 "b")]) 0 [] =
      ([("e1@x.co", Response.mk 500 ""), ("e2@x.co", Response.mk 503 "")].flatMap
          (fun p => [Event.request (urlFor p.1) (headersFor "k"), Event.sleep 0]) ++
        [Event.request (urlFor "e3@x.co") (headersFor "k"), Event.abort], Outcome.aborted) :=
  (collect_abort_third_failure 0 "k").1
    [("e1@x.co", Response.mk 500 ""), ("e2@x.co", Response.mk 503 "")]
    "e3@x.co" (Response.mk 429 "") [("e4@x.co", Response.mk 200 "b")]
    (by decide) (by decide)

/-- C5 (amended): every request the collector issues goes to the fixed API
URL followed by a slash, the address exactly as extracted (no URL encoding
is applied) and the fixed query string, with headers User-Agent set to the
fixed client identifier and the provider key header set to the supplied
credential. -/
theorem collect_request_shape (t : Rat) (key : String) :
    ∀ (pairs : List (String × Response)) (f : Nat) (acc : List (String × String))
      (u : String) (hs : List (String × String)),
      Event.request u hs ∈ (collectGo t key pairs f acc).1 →
      ∃ a, (∃ r, (a, r) ∈ pairs) ∧
        u = apiURL ++ "/" ++ a ++ "?truncateResponse=true" ∧
        hs = [("User-Agent", "pwned_reportv1"), ("hibp-api-key", key)] := by
  intro pairs
  induction pairs with
  | nil => intro f acc u hs h; simp [collectGo] at h
  | cons p rest ih =>
    intro f acc u hs h
    obtain ⟨addr, res⟩ := p
    rw [collectGo] at h
    by_cases hf : isFail res = true
    · by_cases h3 : 3 ≤ f + 1
      · simp [hf, h3] at h
        exact ⟨addr, ⟨res, by simp⟩, by simp [h.1, urlFor, apiURL],
          by simp [h.2, headersFor, userAgent]⟩
      · simp [hf, h3] at h
        rcases h with ⟨hu, hh⟩ | h
        · exact ⟨addr, ⟨res, by simp⟩, by simp [hu, urlFor, apiURL],
            by simp [hh, headersFor, userAgent]⟩
        · obtain ⟨a, ⟨r, hmem⟩, hu, hh⟩ := ih _ _ _ _ h
          exact ⟨a, ⟨r, by simp [hmem]⟩, hu, hh⟩
    · simp [hf] at h
      rcases h with ⟨hu, hh⟩ | h
      · exact ⟨addr, ⟨res, by simp⟩, by simp [hu, urlFor, apiURL],
          by simp [hh, headersFor, userAgent]⟩
      · obtain ⟨a, ⟨r, hmem⟩, hu, hh⟩ := ih _ _ _ _ h
        exact ⟨a, ⟨r, by simp [hmem]⟩, hu, hh⟩

/-- C5 witness: the theorem applied to the one request of a concrete run. -/
theorem collect_request_shape_witness :
    ∃ a, (∃ r, (a, r) ∈ [("a@x.co", Response.mk 404 "")]) ∧
      urlFor "a@x.co" = apiURL ++ "/" ++ a ++ "?truncateResponse=true" ∧
      headersFor "k" = [("User-Agent", "pwned_reportv1"), ("hibp-api-key", "k")] :=
  collect_request_shape 0 "k" [("a@x.co", Response.mk 404 "")] 0 []
    (urlFor "a@x.co") (headersFor "k") (by decide)

/-- C5 counterexample: the extractable address `a%b@x.co` is interpolated
into the URL verbatim; the URL is not the percent-encoded form the claim
describes (any URL encoding must escape the percent character). -/
theorem url_not_encoded_counterexample :
    find_emails "a%b@x.co" = ["a%b@x.co"] ∧
    urlFor "a%b@x.co" ≠ apiURL ++ "/" ++ urlEncode "a%b@x.co" ++ "?truncateResponse=true" := by
  decide

theorem exists_nth_fail :
    ∀ (pairs : List (String × Response)) (k : Nat),
      k + 1 ≤ List.countP isFail (pairs.map Prod.snd) →
      ∃ xs a r ys, pairs = xs ++ (a, r) :: ys ∧
        List.countP isFail (xs.map Prod.snd) = k ∧ isFail r = true := by
  intro pairs
  induction pairs with
  | nil => intro k h; simp at h
  | cons p rest ih =>
    intro k h
    obtain ⟨b, s⟩ := p
    rw [List.map_cons, List.countP_cons] at h
    by_cases hf : isFail s = true
    · rw [if_pos hf] at h
      cases k with
      | zero => exact ⟨[], b, s, rest, rfl, rfl, hf⟩
      | succ k' =>
        obtain ⟨xs, a, r, ys, hsp, hc, hr⟩ := ih k' (by omega)
        refine ⟨(b, s) :: xs, a, r, ys, by rw [hsp]; rfl, ?_, hr⟩
        rw [List.map_cons, List.countP_cons, if_pos hf, hc]
    · rw [if_neg hf] at h
      obtain ⟨xs, a, r, ys, hsp, hc, hr⟩ := ih k (by omega)
      refine ⟨(b, s) :: xs, a, r, ys, by rw [hsp]; rfl, ?_, hr⟩
      rw [List.map_cons, List.countP_cons, if_neg hf, hc]
      omega

/-- C6 (amended): after every request that does not trigger the fatal
third-failure exit, the collector sleeps the configured delay before the
next request, regardless of the response status: a run with at most two
non-200/404 responses sleeps after each of its N requests (so the delay
elapses in all N-1 gaps), and a run with three or more splits at its third
failure — the delay is slept after every earlier request, while the
aborting request is followed by the immediate exit with no sleep.  The
delay is the value supplied with the sleep option (an integer count of
seconds, due to `type=int`) and defaults to 1.6 seconds. -/
theorem collect_sleeps_every_gap :
    (∀ (t : Rat) (key : String) (pairs : List (String × Response)),
      List.countP isFail (pairs.map Prod.snd) ≤ 2 →
      (collectGo t key pairs 0 []).1 =
        pairs.flatMap (fun p => [Event.request (urlFor p.1) (headersFor key), Event.sleep t])) ∧
    (∀ (t : Rat) (key : String) (pairs : List (String × Response)),
      3 ≤ List.countP isFail (pairs.map Prod.snd) →
      ∃ xs a r ys, pairs = xs ++ (a, r) :: ys ∧
        List.countP isFail (xs.map Prod.snd) = 2 ∧ isFail r = true ∧
        (collectGo t key pairs 0 []).1 =
          xs.flatMap (fun p => [Event.request (urlFor p.1) (headersFor key), Event.sleep t]) ++
            [Event.request (urlFor a) (headersFor key), Event.abort]) ∧
    sleepSetting none = 1.6 ∧ (∀ n : Int, sleepSetting (some n) = (n : Rat)) := by
  refine ⟨?_, ?_, rfl, fun n => rfl⟩
  · intro t key pairs h
    rw [collectGo_completed t key pairs 0 [] (by simpa using h)]
  · intro t key pairs h3
    obtain ⟨xs, a, r, ys, hsplit, hc2, hfr⟩ := exists_nth_fail pairs 2 h3
    refine ⟨xs, a, r, ys, hsplit, hc2, hfr, ?_⟩
    rw [hsplit, collectGo_aborted t key xs a r ys 0 [] (by simpa using hc2) hfr]

/-- C6 counterexample: a run of three addresses whose responses are all
status 500 issues three requests but sleeps only twice — the request at
which the failure counter reaches three is followed by the fatal exit, not
by the configured sleep, so the original claim's "sleeps after the request
completes regardless of its HTTP status, for every processed address" fails
on this run. -/
theorem collect_no_sleep_after_abort_counterexample :
    (collectGo (8 / 5) "k" [("e1@x.co", Response.mk 500 ""), ("e2@x.co", Response.mk 500 ""),
        ("e3@x.co", Response.mk 500 "")] 0 []).1 =
      [Event.request (urlFor "e1@x.co") (headersFor "k"), Event.sleep (8 / 5),
       Event.request (urlFor "e2@x.co") (headersFor "k"), Event.sleep (8 / 5),
       Event.request (urlFor "e3@x.co") (headersFor "k"), Event.abort] ∧
    List.countP isRequest ((collectGo (8 / 5) "k" [("e1@x.co", Response.mk 500 ""),
        ("e2@x.co", Response.mk 500 ""), ("e3@x.co", Response.mk 500 "")] 0 []).1) = 3 ∧
    List.countP isSleep ((collectGo (8 / 5) "k" [("e1@x.co", Response.mk 500 ""),
        ("e2@x.co", Response.mk 500 ""), ("e3@x.co", Response.mk 500 "")] 0 []).1) = 2 :=
  ⟨rfl, rfl, rfl⟩

/-- C6 witness: a concrete two-address run (one success, one failure)
sleeps the configured delay after each of the two requests. -/
theorem collect_sleeps_every_gap_witness :
    (collectGo (8 / 5) "k" [("a@x.co", Response.mk 200 "b"), ("b@x.co", Response.mk 503 "")]
        0 []).1 =
      [("a@x.co", Response.mk 200 "b"), ("b@x.co", Response.mk 503 "")].flatMap
        (fun p => [Event.request (urlFor p.1) (headersFor "k"), Event.sleep (8 / 5)]) :=
  collect_sleeps_every_gap.1 (8 / 5) "k"
    [("a@x.co", Response.mk 200 "b"), ("b@x.co", Response.mk 503 "")] (by decide)

theorem storeAll_status_irrelevant :
    ∀ (pairs : List (String × Response)) (acc : List (String × String)),
      storeAll acc (pairs.map (fun p => (p.1, Response.mk 200 p.2.body))) = storeAll acc pairs := by
  intro pairs
  induction pairs with
  | nil => intro acc; rfl
  | cons p rest ih => intro acc; simp [storeAll, store, ih]

theorem flatMap_trace_neutral (t : Rat) (key : String)
    (pairs : List (String × Response)) :
    (pairs.map (fun p => (p.1, Response.mk 200 p.2.body))).flatMap
        (fun p => [Event.request (urlFor p.1) (headersFor key), Event.sleep t]) =
      pairs.flatMap (fun p => [Event.request (urlFor p.1) (headersFor key), Event.sleep t]) := by
  induction pairs with
  | nil => rfl
  | cons p rest ih => simp [ih]

/-- C9: as long as the failure threshold is not reached, the run behaves
exactly as if every response had status 200 with the same body — in
particular a non-empty body of a non-200/404 response is stored under its
address just like a 200 body, and the completed run hands exactly the
stored mapping to the formatter. -/
theorem collect_stores_error_bodies (t : Rat) (key : String)
    (pairs : List (String × Response))
    (h : List.countP isFail (pairs.map Prod.snd) ≤ 2) :
    collectGo t key pairs 0 [] =
      collectGo t key (pairs.map (fun p => (p.1, Response.mk 200 p.2.body))) 0 [] ∧
    (collectGo t key pairs 0 []).2 = Outcome.completed (storeAll [] pairs) := by
  have hz : List.countP isFail
      ((pairs.map (fun p => (p.1, Response.mk 200 p.2.body))).map Prod.snd) = 0 := by
    rw [List.countP_eq_zero]
    intro r hr
    simp only [List.map_map, List.mem_map] at hr
    obtain ⟨p, _, hp⟩ := hr
    rw [← hp]
    simp [isFail]
  have h1 := collectGo_completed t key pairs 0 [] (by simpa using h)
  have h2 := collectGo_completed t key
    (pairs.map (fun p => (p.1, Response.mk 200 p.2.body))) 0 [] (by omega)
  constructor
  · rw [h1, h2, storeAll_status_irrelevant, flatMap_trace_neutral]
  · rw [h1]

/-- C9 witness: a 503 response with a non-empty body, below the threshold,
is collected exactly like a 200 response with the same body. -/
theorem collect_stores_error_bodies_witness :
    collectGo 0 "k" [("a@x.co", Response.mk 503 "errbody")] 0 [] =
      collectGo 0 "k" [("a@x.co", Response.mk 200 "errbody")] 0 [] ∧
    (collectGo 0 "k" [("a@x.co", Response.mk 503 "errbody")] 0 []).2 =
      Outcome.completed (storeAll [] [("a@x.co", Response.mk 503 "errbody")]) :=
  collect_stores_error_bodies 0 "k" [("a@x.co", Response.mk 503 "errbody")] (by decide)

/-! ### Dictionary lemmas for the raw-response mapping -/

theorem dictGet_dictInsert (d : List (String × String)) (k v a : String) :
    dictGet (dictInsert d k v) a = if a = k then some v else dictGet d a := by
  induction d with
  | nil =>
    by_cases h : a = k
    · subst h; simp [dictInsert, dictGet]
    · have h' : ¬ k = a := fun hh => h hh.symm
      simp [dictInsert, dictGet, h, h']
  | cons hd rest ih =>
    obtain ⟨k', v'⟩ := hd
    by_cases hk : k' = k
    · subst hk
      by_cases ha : a = k'
      · subst ha; simp [dictInsert, dictGet]
      · have h2 : ¬ k' = a := fun hh => ha hh.symm
        simp [dictInsert, dictGet, ha, h2]
    · by_cases ha : k' = a
      · subst ha
        have h2 : ¬ k' = k := hk
        simp [dictInsert, dictGet, hk, fun hh : k' = k => hk hh]
      · simp [dictInsert, dictGet, hk, ha, ih]

theorem dictInsert_keys (d : List (String × String)) (k v : String) :
    (dictInsert d k v).map Prod.fst =
      if k ∈ d.map Prod.fst then d.map Prod.fst else d.map Prod.fst ++ [k] := by
  induction d with
  | nil => simp [dictInsert]
  | cons hd rest ih =>
    obtain ⟨k', v'⟩ := hd
    by_cases hk : k' = k
    · subst hk; simp [dictInsert]
    · have hkk : ¬ k = k' := fun hh => hk hh.symm
      by_cases hmem : k ∈ rest.map Prod.fst
      · simp [dictInsert, hk, ih, hmem, hkk, List.mem_cons]
      · simp [dictInsert, hk, ih, hmem, hkk, List.mem_cons]

theorem dictInsert_nodup (d : List (String × String)) (k v : String)
    (h : (d.map Prod.fst).Nodup) : ((dictInsert d k v).map Prod.fst).Nodup := by
  rw [dictInsert_keys]
  split
  · exact h
  · rename_i hn
    simp [List.nodup_append, h, hn]

theorem storeAll_nodup :
    ∀ (pairs : List (String × Response)) (acc : List (String × String)),
      (acc.map Prod.fst).Nodup → ((storeAll acc pairs).map Prod.fst).Nodup := by
  intro pairs
  induction pairs with
  | nil => intro acc h; exact h
  | cons p rest ih =>
    intro acc h
    rw [storeAll]
    refine ih _ ?_
    by_cases hb : p.2.body = ""
    · simpa [store, hb] using h
    · simpa [store, hb] using dictInsert_nodup acc p.1 p.2.body h

theorem dictGet_storeAll :
    ∀ (pairs : List (String × Response)) (acc : List (String × String)) (a : String),
      dictGet (storeAll acc pairs) a = lastBodyFrom a (dictGet acc a) pairs := by
  intro pairs
  induction pairs with
  | nil => intro acc a; rfl
  | cons p rest ih =>
    intro acc a
    obtain ⟨addr, res⟩ := p
    rw [storeAll, lastBodyFrom, ih]
    congr 1
    by_cases hb : res.body = ""
    · simp [store, hb]
    · rw [store, if_neg hb, dictGet_dictInsert]
      by_cases ha : a = addr
      · subst ha; simp [hb]
      · have hna : ¬ (addr = a ∧ ¬ res.body = "") := fun hh => ha hh.1.symm
        simp [ha, hna]

theorem countP_request_flatMap (t : Rat) (key : String) :
    ∀ pairs : List (String × Response),
      List.countP isRequest (pairs.flatMap
        (fun p => [Event.request (urlFor p.1) (headersFor key), Event.sleep t])) =
        pairs.length := by
  intro pairs
  induction pairs with
  | nil => rfl
  | cons p rest ih =>
    simp [List.countP_cons, isRequest, ih, List.countP_append]

/-- C10 (amended): in a completed run, every occurrence of an address is
queried (one request per list entry, duplicates included), the raw-response
mapping holds at most one entry per distinct address, and the body stored
for an address is the body of its **last occurrence that returned a
non-empty body** — a later occurrence with an empty body does not overwrite
an earlier stored body. -/
theorem collect_last_nonempty_wins (t : Rat) (key : String)
    (pairs : List (String × Response))
    (h : List.countP isFail (pairs.map Prod.snd) ≤ 2) :
    List.countP isRequest (collectGo t key pairs 0 []).1 = pairs.length ∧
    (collectGo t key pairs 0 []).2 = Outcome.completed (storeAll [] pairs) ∧
    ((storeAll [] pairs).map Prod.fst).Nodup ∧
    ∀ a, dictGet (storeAll [] pairs) a = lastBodyFrom a none pairs := by
  have h1 := collectGo_completed t key pairs 0 [] (by simpa using h)
  refine ⟨?_, by rw [h1], storeAll_nodup pairs [] (by simp), fun a => dictGet_storeAll pairs [] a⟩
  rw [h1]
  exact countP_request_flatMap t key pairs

/-- C10 witness: the theorem applied to a concrete run with the same address
occurring twice. -/
theorem collect_last_nonempty_wins_witness :
    dictGet (storeAll [] [("a@x.co", Response.mk 200 "b1"), ("a@x.co", Response.mk 200 "b2")])
        "a@x.co" =
      lastBodyFrom "a@x.co" none
        [("a@x.co", Response.mk 200 "b1"), ("a@x.co", Response.mk 200 "b2")] :=
  (collect_last_nonempty_wins 0 "k"
    [("a@x.co", Response.mk 200 "b1"), ("a@x.co", Response.mk 200 "b2")] (by decide)).2.2.2 "a@x.co"

/-- C10 counterexample: the same address is queried twice; the first call
returns 200 with a non-empty body, the second returns 404 with an empty
body.  The final mapping still holds the first body (which is non-empty),
so the later occurrence's response did not overwrite the earlier one and
the address does not contribute via its last response. -/
theorem collect_duplicate_address_counterexample :
    (collectGo 0 "k" [("a@x.co", Response.mk 200 "\"Name\":\"B1\""),
        ("a@x.co", Response.mk 404 "")] 0 []).2 =
      Outcome.completed [("a@x.co", "\"Name\":\"B1\"")] ∧
    dictGet [("a@x.co", "\"Name\":\"B1\"")] "a@x.co" = some "\"Name\":\"B1\"" ∧
    ("\"Name\":\"B1\"" : String) ≠ "" := by
  decide

/-! ### The pipeline -/

/-- C7: when the input text contains no extractable address, the run stops
before any HTTP request (empty trace), the output file is untouched, and
the run ends in the no-emails abort. -/
theorem run_no_emails (text : String) (api : Nat → Response) (t : Rat) (key : String)
    (old : Option String) (h : find_emails text = []) :
    runMain text api t key old = ([], old, RunResult.abortedNoEmails) := by
  simp [runMain, h]

/-- C7 witness: a concrete run on text with no extractable address. -/
theorem run_no_emails_witness :
    runMain "nothing to see here" (fun _ => Response.mk 200 "") 0 "k" none =
      ([], none, RunResult.abortedNoEmails) :=
  run_no_emails "nothing to see here" (fun _ => Response.mk 200 "") 0 "k" none (by decide)

/-- C8: when the collection stage aborts on the failure threshold, the
formatter and the report writer never run: the output file keeps its
previous content and the partial raw results are discarded (the aborted
outcome carries none). -/
theorem run_abort_discards (text : String) (api : Nat → Response) (t : Rat) (key : String)
    (old : Option String) (evs : List Event)
    (h : collectGo t key (pairsOf text api) 0 [] = (evs, Outcome.aborted)) :
    runMain text api t key old = (evs, old, RunResult.abortedRateLimit) := by
  rw [runMain]
  by_cases he : find_emails text = []
  · exfalso
    rw [pairsOf, he] at h
    simp [collectGo] at h
  · rw [if_neg he, h]

/-- C8 witness: three straight 500 responses abort a concrete three-address
run; the pre-existing file content survives unchanged. -/
theorem run_abort_discards_witness :
    runMain "a@x.co b@x.co c@x.co" (fun _ => Response.mk 500 "") 0 "k" (some "previous") =
      ([Event.request (urlFor "a@x.co") (headersFor "k"), Event.sleep 0,
        Event.request (urlFor "b@x.co") (headersFor "k"), Event.sleep 0,
        Event.request (urlFor "c@x.co") (headersFor "k"), Event.abort],
       some "previous", RunResult.abortedRateLimit) :=
  run_abort_discards "a@x.co b@x.co c@x.co" (fun _ => Response.mk 500 "") 0 "k"
    (some "previous")
    [Event.request (urlFor "a@x.co") (headersFor "k"), Event.sleep 0,
      Event.request (urlFor "b@x.co") (headersFor "k"), Event.sleep 0,
      Event.request (urlFor "c@x.co") (headersFor "k"), Event.abort] (by decide)

end Pwn
